import Mathlib

/-!
Verification development for the "blast" proof-search engine
(src/library/blast/blast.cpp). The expression and level languages, the
internalizer (`to_blast_expr_fn`), the type-context facade (`tctx`), the
search driver (`blastenv::search`, `search_upto`, `resolve`) and the
externalizer (`to_tactic_proof_fn`) are embedded shallowly. Code of the
repository that lives outside blast.cpp (state.cpp, expr.h, intros.cpp,
assumption.cpp, the generic replace_visitor and type checker) is either
modelled from the specification (marked in doc comments) or abstracted
into oracle parameters. Recursions that the C++ performs with unbounded
loops are given an explicit fuel parameter; a fuel-out result is kept
distinguishable from a genuine result wherever the distinction matters.
-/

/-- Hierarchical names of the C++ are modelled as plain strings
(e.g. `"blast.inc_depth"` for `name{"blast", "inc_depth"}`). -/
abbrev Name := String

/-- Universe levels (kernel/level.h): the usual lattice extended with the
blast universe-metavariable leaf `uref`, identified by an index. External
universe metavariables keep their name in the `meta` leaf. -/
inductive Level where
  | zero : Level
  | succ (l : Level) : Level
  | param (n : Name) : Level
  | global (n : Name) : Level
  | max (a b : Level) : Level
  | imax (a b : Level) : Level
  | meta (n : Name) : Level
  | uref (idx : Nat) : Level
deriving DecidableEq

/-- Expressions: the ambient calculus extended with the blast reference
leaves `href` and `mref`, each identified by a monotonic index. External
local constants and external metavariables are identified by name; the
`tmp` flag on a local marks the temporary locals produced by
`tmp_local_generator` (`is_tmp_local`). Opaque macros are omitted: none of
the claims involves them and they are traversed purely compositionally. -/
inductive Expr where
  | var (idx : Nat) : Expr
  | sort (l : Level) : Expr
  | const (n : Name) (ls : List Level) : Expr
  | app (f a : Expr) : Expr
  | lam (n : Name) (d b : Expr) : Expr
  | pi (n : Name) (d b : Expr) : Expr
  | locl (n : Name) (tmp : Bool) : Expr
  | meta (n : Name) : Expr
  | href (idx : Nat) : Expr
  | mref (idx : Nat) : Expr
deriving DecidableEq

/-- Association-list lookup used for every `name_map`/index map of the
source (first entry with the given key wins, as in `rb_map::find`). -/
def alookup {α β : Type} [DecidableEq α] (k : α) : List (α × β) → Option β
  | [] => none
  | (k', v) :: rest => if k' = k then some v else alookup k rest

/-- `closed()` of the kernel: no de Bruijn variable escapes its binders.
Local constants and metavariables are closed. -/
def Expr.closedAt : Expr → Nat → Bool
  | .var i, k => i < k
  | .sort _, _ => true
  | .const _ _, _ => true
  | .app f a, k => f.closedAt k && a.closedAt k
  | .lam _ d b, k => d.closedAt k && b.closedAt (k + 1)
  | .pi _ d b, k => d.closedAt k && b.closedAt (k + 1)
  | .locl _ _, _ => true
  | .meta _, _ => true
  | .href _, _ => true
  | .mref _, _ => true

def Expr.closed (e : Expr) : Bool := e.closedAt 0

/-- `get_app_fn`: the head of the application spine. -/
def getAppFn : Expr → Expr
  | .app f _ => getAppFn f
  | e => e

/-- `get_app_args`: the arguments of the application spine, in order. -/
def getAppArgsList : Expr → List Expr
  | .app f a => getAppArgsList f ++ [a]
  | _ => []

/-- `mk_app(f, args)`: left-nested application of `f` to `args`. -/
def mkAppList (f : Expr) (args : List Expr) : Expr := args.foldl Expr.app f

/-- `is_meta(e)`: the head of the application spine is a metavariable. -/
def isMeta (e : Expr) : Bool :=
  match getAppFn e with
  | .meta _ => true
  | _ => false

/-- `is_local(e)` (strictly a local constant, not a metavariable). -/
def Expr.isLocal : Expr → Bool
  | .locl _ _ => true
  | _ => false

/-- `mlocal_name(e)` where defined: the name of a local constant or of an
external metavariable; `none` on every other constructor (the C++ asserts
there). -/
def Expr.mlocalName? : Expr → Option Name
  | .locl n _ => some n
  | .meta n => some n
  | _ => none

/-- `href_index`: the index of an href (asserted in the C++). -/
def hrefIdx : Expr → Nat
  | .href i => i
  | _ => 0

/-- `aux = app_fn(aux)` iterated `n` times. -/
def stripApps : Expr → Nat → Expr
  | e, 0 => e
  | .app f _, n + 1 => stripApps f n
  | e, _ + 1 => e

/-- Indices of the hrefs occurring in an expression, in traversal order. -/
def Expr.hrefList : Expr → List Nat
  | .href i => [i]
  | .app f a => f.hrefList ++ a.hrefList
  | .lam _ d b => d.hrefList ++ b.hrefList
  | .pi _ d b => d.hrefList ++ b.hrefList
  | _ => []

/-- Indices of the mrefs occurring in an expression, in traversal order. -/
def Expr.mrefList : Expr → List Nat
  | .mref i => [i]
  | .app f a => f.mrefList ++ a.mrefList
  | .lam _ d b => d.mrefList ++ b.mrefList
  | .pi _ d b => d.mrefList ++ b.mrefList
  | _ => []

/-- Names of the non-temporary external local constants occurring in an
expression. -/
def Expr.nonTmpLocalList : Expr → List Name
  | .locl n false => [n]
  | .locl _ true => []
  | .app f a => f.nonTmpLocalList ++ a.nonTmpLocalList
  | .lam _ d b => d.nonTmpLocalList ++ b.nonTmpLocalList
  | .pi _ d b => d.nonTmpLocalList ++ b.nonTmpLocalList
  | _ => []

/-- Indices of the urefs occurring in a level. -/
def Level.urefList : Level → List Nat
  | .succ l => l.urefList
  | .max a b => a.urefList ++ b.urefList
  | .imax a b => a.urefList ++ b.urefList
  | .uref i => [i]
  | _ => []

/-- Indices of the urefs occurring in an expression (inside sorts and
constant level lists). -/
def Expr.urefList : Expr → List Nat
  | .sort l => l.urefList
  | .const _ ls => (ls.map Level.urefList).flatten
  | .app f a => f.urefList ++ a.urefList
  | .lam _ d b => d.urefList ++ b.urefList
  | .pi _ d b => d.urefList ++ b.urefList
  | _ => []

/-- Modelled from the spec: a hypothesis declaration (state.h is not in the
source tree) — "a pretty name, a type (expression), an optional
definitional value ..., and an original external local constant retained
for externalization" (§3). Following the call
`s.mk_hypothesis(local_pp_name(h), new_type, h)` in `to_state` together
with `to_tactic_proof_fn::visit_local` (which removes hrefs exactly by
inlining the hypothesis value, per the comment "1- (done) remove all
occurrences of href's from pr"), the retained source local is stored as
the hypothesis value. -/
structure Hypothesis where
  name : Name
  type : Expr
  value : Option Expr
deriving DecidableEq

/-- Modelled from the spec: a metavariable declaration (state.h is not in
the source tree) — "a type (expression) and a set of `href` indices
describing the admissible context" (§3). -/
structure MetavarDecl where
  type : Expr
  context : List Nat
deriving DecidableEq

/-- Modelled from the spec: a proof step is "an opaque resolver paired
with the continuation state it captured" (§3, state.h not in the source
tree). Steps are identified opaquely; the resolver behaviour is supplied
as a parameter to the driver functions that use it. -/
abbrev ProofStep := Nat

/-- Modelled from the spec: the blast `state` (§3/§4.1; state.h/state.cpp
are not in the source tree). It owns the hypothesis table, the
metavariable-declaration table, the two append-only assignment maps, the
target, the proof-step stack and the proof depth; the fresh-index counters
for hrefs, mrefs and urefs are kept here. -/
structure State where
  hyps : List (Nat × Hypothesis)
  nHref : Nat
  metavarDecls : List (Nat × MetavarDecl)
  nMref : Nat
  nUref : Nat
  urefAssignment : List (Nat × Level)
  mrefAssignment : List (Nat × Expr)
  target : Expr
  proofSteps : List ProofStep
  proofDepth : Nat
deriving DecidableEq

/-- The default-constructed `state s;` of `to_state` (the target is a
dummy until `set_target` runs). -/
def initState : State :=
  { hyps := [], nHref := 0, metavarDecls := [], nMref := 0, nUref := 0,
    urefAssignment := [], mrefAssignment := [], target := .sort .zero,
    proofSteps := [], proofDepth := 0 }

def State.getHypothesisDecl (s : State) (i : Nat) : Option Hypothesis :=
  alookup i s.hyps

def State.getMetavarDecl (s : State) (m : Nat) : Option MetavarDecl :=
  alookup m s.metavarDecls

def State.getMrefAssignment (s : State) (m : Nat) : Option Expr :=
  alookup m s.mrefAssignment

def State.getUrefAssignment (s : State) (u : Nat) : Option Level :=
  alookup u s.urefAssignment

/-- Modelled from the spec: `mk_hypothesis(name, type, source_local) →
href` (§4.1) — appends a hypothesis and returns its stable index; the
source local is retained as the hypothesis value (see `Hypothesis`). -/
def State.mkHypothesis (s : State) (n : Name) (type : Expr) (src : Expr) :
    Expr × State :=
  (.href s.nHref,
   { s with hyps := (s.nHref, ⟨n, type, some src⟩) :: s.hyps,
            nHref := s.nHref + 1 })

/-- Modelled from the spec: `mk_metavar(context, type) → mref` (§4.1) —
allocates a metavariable with the given admissible context. -/
def State.mkMetavar (s : State) (ctx : List Nat) (type : Expr) :
    Expr × State :=
  (.mref s.nMref,
   { s with metavarDecls := (s.nMref, ⟨type, ctx⟩) :: s.metavarDecls,
            nMref := s.nMref + 1 })

/-- Modelled from the spec: `assign_mref` records an assignment; "no
assignment is ever mutated in place beyond append" (§4.1). -/
def State.assignMref (s : State) (m : Nat) (v : Expr) : State :=
  { s with mrefAssignment := s.mrefAssignment ++ [(m, v)] }

/-- Modelled from the spec: `assign_uref` (§4.1), append-only as well. -/
def State.assignUref (s : State) (u : Nat) (v : Level) : State :=
  { s with urefAssignment := s.urefAssignment ++ [(u, v)] }

/-- Modelled from the spec: `save_assignment() → snapshot` — "an opaque
token that records the current sizes of the assignment maps" (§3). -/
def State.saveAssignment (s : State) : Nat × Nat :=
  (s.urefAssignment.length, s.mrefAssignment.length)

/-- Modelled from the spec: `restore_assignment(snapshot)` —
"checkpoint/rollback by shrinking the assignment maps back to the
recorded sizes" (§4.1). -/
def State.restoreAssignment (s : State) (sn : Nat × Nat) : State :=
  { s with urefAssignment := s.urefAssignment.take sn.1,
           mrefAssignment := s.mrefAssignment.take sn.2 }

/-- Intersection of href-index sets, keeping the order of the first. -/
def listInter (l c : List Nat) : List Nat := l.filter (fun a => a ∈ c)

/-- Modelled from the spec: `restrict_mref_context_using(m', m)` — "narrow
the admissible context of `m'` to the intersection of its context and
`m`'s" (§4.1). The failure case mentioned by the spec (an existing
assignment of `m'` becoming invalid) is reported through a return value
the caller in blast.cpp ignores, so it is not modelled. -/
def State.restrictMrefContextUsing (s : State) (m' m : Nat) : State :=
  match s.getMetavarDecl m', s.getMetavarDecl m with
  | some d', some dm =>
      { s with
        metavarDecls := s.metavarDecls.map fun p =>
          if p.1 = m' then (p.1, ⟨d'.type, listInter d'.context dm.context⟩) else p }
  | _, _ => s

def State.popProofStep (s : State) : State :=
  { s with proofSteps := s.proofSteps.tail }

/-- Internalization errors of `to_blast_expr_fn` (blast_exception); `fuelOut`
marks exhaustion of the explicit recursion budget of the embedding. -/
inductive BErr where
  | unsupported (e : Expr) : BErr
  | illFormed (e : Expr) : BErr
  | fuelOut : BErr
deriving DecidableEq

/-- The mutable environment threaded through `to_blast_expr_fn`: the state
under construction plus the blastenv maps `m_uvar2uref`,
`m_mvar2meta_mref` (external metavariable name to the first-seen
application and its mref) and the private `local2href` map. -/
structure TBE where
  state : State
  uvar2uref : List (Name × Level)
  mvar2metaMref : List (Name × (Expr × Expr))
  local2href : List (Name × Expr)
deriving DecidableEq

/-- `to_blast_expr_fn::to_blast_level`: structural rewrite of a level;
external universe metavariables are memoized in `m_uvar2uref` and fresh
urefs are drawn from the fresh-index counter. -/
def toBlastLevel : Level → TBE → Level × TBE
  | .zero, t => (.zero, t)
  | .succ l, t =>
      let r := toBlastLevel l t
      (.succ r.1, r.2)
  | .param n, t => (.param n, t)
  | .global n, t => (.global n, t)
  | .max a b, t =>
      let ra := toBlastLevel a t
      let rb := toBlastLevel b ra.2
      (.max ra.1 rb.1, rb.2)
  | .imax a b, t =>
      let ra := toBlastLevel a t
      let rb := toBlastLevel b ra.2
      (.imax ra.1 rb.1, rb.2)
  | .meta n, t =>
      match alookup n t.uvar2uref with
      | some u => (u, t)
      | none =>
          let u := Level.uref t.state.nUref
          (u, { t with state := { t.state with nUref := t.state.nUref + 1 },
                       uvar2uref := (n, u) :: t.uvar2uref })
  | .uref i, t => (.uref i, t)

def toBlastLevels : List Level → TBE → List Level × TBE
  | [], t => ([], t)
  | l :: ls, t =>
      let r := toBlastLevel l t
      let rs := toBlastLevels ls r.2
      (r.1 :: rs.1, rs.2)

/-- The first-encounter loop of `visit_meta_app` ("Find prefix that
contains only closed terms"): walks the arguments, stops at the first
non-closed one, ignores arguments that are not local constants, skips a
local already processed, and collects the href index of each mapped local;
a closed local argument missing from `local2href` raises the unsupported
metavariable occurrence error (with the whole application `e0` attached).
Returns the collected context and the prefix size `i`. -/
def collectCtx (l2h : List (Name × Expr)) (e0 : Expr) :
    List Expr → List Expr → List Nat → Except BErr (List Nat × Nat)
  | [], prev, acc => .ok (acc.reverse, prev.length)
  | a :: rest, prev, acc =>
    if a.closed then
      match a with
      | .locl n tmp =>
          if prev.any (fun p => decide (p.mlocalName? = some n)) then
            collectCtx l2h e0 rest (prev ++ [.locl n tmp]) acc
          else
            match alookup n l2h with
            | some h => collectCtx l2h e0 rest (prev ++ [.locl n tmp]) (hrefIdx h :: acc)
            | none => .error (.unsupported e0)
      | _ => collectCtx l2h e0 rest (prev ++ [a]) acc
    else .ok (acc.reverse, prev.length)

/-- The re-encounter check of `visit_meta_app`: the recorded argument list
of the first-seen application must be no longer than the new one and must
match it positionally — a recorded local matches only a local of the same
name, any other recorded argument only a structurally equal one. (The C++
performs the length test first and then the positional loop; both throw
the same error.) -/
def prefixOk : List Expr → List Expr → Bool
  | [], _ => true
  | _ :: _, [] => false
  | d :: ds, a :: as =>
    (match d with
     | .locl dn _ =>
        (match a with
         | .locl an _ => dn = an
         | _ => false)
     | _ => d = a) && prefixOk ds as

/-- `mk_mref_app`: visit the remaining arguments (through the supplied
one-step-smaller visitor) and apply the mref to the results. -/
def visitMkApp (rec : Expr → TBE → Except BErr (Expr × TBE))
    (f : Expr) (as : List Expr) (t : TBE) : Except BErr (Expr × TBE) :=
  as.foldlM (fun acc a => do
      let r ← rec a acc.2
      pure (Expr.app acc.1 r.1, r.2))
    (f, t)

/-- One layer of `to_blast_expr_fn::visit`: the dispatcher of
replace_visitor specialized by the overrides of blast.cpp. Applications
whose head is a metavariable (and bare metavariables) go through
`visit_meta_app`; local constants are replaced by their href and raise
the ill-formed goal error when unmapped; everything else is rebuilt
compositionally. `rec` is the visitor at one fuel step less; `infer` is
the external type checker `m_tc.infer`. The blast-internal leaves `href`
and `mref` never occur in external input and are returned unchanged. -/
def visitStep (infer : Expr → Expr)
    (rec : Expr → TBE → Except BErr (Expr × TBE)) (e : Expr) (t : TBE) :
    Except BErr (Expr × TBE) :=
  if isMeta e then
    match getAppFn e with
    | .meta mname =>
      let args := getAppArgsList e
      match alookup mname t.mvar2metaMref with
      | some p =>
          if prefixOk (getAppArgsList p.1) args then
            visitMkApp rec p.2 (args.drop (getAppArgsList p.1).length) t
          else .error (.unsupported e)
      | none =>
          match collectCtx t.local2href e args [] [] with
          | .error err => .error err
          | .ok (ctx, prefixSz) =>
            let aux := stripApps e (args.length - prefixSz)
            match rec (infer aux) t with
            | .error err => .error err
            | .ok (type, t1) =>
              let r := t1.state.mkMetavar ctx type
              let t2 := { t1 with
                state := r.2,
                mvar2metaMref := (mname, (e, r.1)) :: t1.mvar2metaMref }
              visitMkApp rec r.1 (args.drop prefixSz) t2
    | _ => .error (.unsupported e)
  else
    match e with
    | .var i => .ok (.var i, t)
    | .sort l =>
        let r := toBlastLevel l t
        .ok (.sort r.1, r.2)
    | .const n ls =>
        let r := toBlastLevels ls t
        .ok (.const n r.1, r.2)
    | .app f a => do
        let rf ← rec f t
        let ra ← rec a rf.2
        .ok (.app rf.1 ra.1, ra.2)
    | .lam n d b => do
        let rd ← rec d t
        let rb ← rec b rd.2
        .ok (.lam n rd.1 rb.1, rb.2)
    | .pi n d b => do
        let rd ← rec d t
        let rb ← rec b rd.2
        .ok (.pi n rd.1 rb.1, rb.2)
    | .locl n tmp =>
        match alookup n t.local2href with
        | some h => .ok (h, t)
        | none => .error (.illFormed (.locl n tmp))
    | .meta n => .error (.unsupported (.meta n))
    | .href i => .ok (.href i, t)
    | .mref i => .ok (.mref i, t)

/-- `to_blast_expr_fn::operator()` with an explicit recursion budget: the
C++ recursion is unbounded (visiting the inferred type of a metavariable
prefix recurses into a term that is not a subterm), so each recursive
call costs one unit of fuel. -/
def visitB (infer : Expr → Expr) : Nat → Expr → TBE → Except BErr (Expr × TBE)
  | 0, _, _ => .error .fuelOut
  | fuel + 1, e, t => visitStep infer (visitB infer fuel) e t

/-- An external goal: hypotheses as named external locals with their types,
plus the target. -/
structure Goal where
  hyps : List (Name × Expr)
  target : Expr
deriving DecidableEq

/-- The hypothesis loop of `blastenv::to_state`: normalize each hypothesis
type (through the external normalizer oracle), internalize it, create the
hypothesis retaining the source local, and record the local-to-href
mapping. -/
def toStateHyps (normalize infer : Expr → Expr) (fuel : Nat) :
    List (Name × Expr) → TBE → Except BErr TBE
  | [], t => .ok t
  | (n, ty) :: rest, t => do
      let r ← visitB infer fuel (normalize ty) t
      let h := r.2.state.mkHypothesis n r.1 (.locl n false)
      toStateHyps normalize infer fuel rest
        { r.2 with state := h.2, local2href := (n, h.1) :: r.2.local2href }

/-- `blastenv::to_state`: build a fresh state from the goal — hypotheses
first, then the normalized and internalized target. -/
def toState (normalize infer : Expr → Expr) (fuel : Nat) (g : Goal) :
    Except BErr TBE := do
  let t1 ← toStateHyps normalize infer fuel g.hyps
    { state := initState, uvar2uref := [], mvar2metaMref := [], local2href := [] }
  let r ← visitB infer fuel (normalize g.target) t1
  .ok { r.2 with state := { r.2.state with target := r.1 } }

/-- The `for_each` traversal of `tctx::validate_assignment`: pre-order
walk of `v` threading the state; `ok` short-circuits further work. An
href outside the context of `m` fails (check 1); a non-temporary external
local not among `locals` fails (check 3); the mref `m` itself fails
(check 4); any other mref gets its admissible context restricted against
`m`'s as a side effect (check 2) and is not descended into. `ctx` is the
context of `m`, fetched once by the caller as in the C++
(`metavar_decl const * d = s.get_metavar_decl(m)`). -/
def validateVisit (ctx : List Nat) (m : Nat) (locals : List Name) :
    Expr → State → Bool × State
  | .href i, s => if i ∈ ctx then (true, s) else (false, s)
  | .locl n tmp, s =>
      if tmp then (true, s)
      else if n ∈ locals then (true, s) else (false, s)
  | .mref i, s =>
      if i = m then (false, s) else (true, s.restrictMrefContextUsing i m)
  | .app f a, s =>
      let r := validateVisit ctx m locals f s
      if r.1 then validateVisit ctx m locals a r.2 else r
  | .lam _ d b, s =>
      let r := validateVisit ctx m locals d s
      if r.1 then validateVisit ctx m locals b r.2 else r
  | .pi _ d b, s =>
      let r := validateVisit ctx m locals d s
      if r.1 then validateVisit ctx m locals b r.2 else r
  | _, s => (true, s)

/-- `tctx::validate_assignment(m, locals, v)`: returns the `ok` flag and
the (possibly side-effected) state. The C++ asserts that the declaration
of `m` exists; when it does not, the traversal trivially succeeds here. -/
def State.validateAssignment (s : State) (m : Nat) (locals : List Name)
    (v : Expr) : Bool × State :=
  match s.getMetavarDecl m with
  | some d => validateVisit d.context m locals v s
  | none => (true, s)

/-- The snapshot-facing part of `tctx`: the current blastenv state plus
the internal snapshot stack `m_stack`. -/
structure Tctx where
  currState : State
  stack : List (Nat × Nat)
deriving DecidableEq

/-- `tctx::push()`: record a `save_assignment` snapshot on the stack. -/
def Tctx.push (t : Tctx) : Tctx :=
  { t with stack := t.currState.saveAssignment :: t.stack }

/-- `tctx::pop()`: restore the most recent snapshot and drop it. (Popping
with an empty stack is undefined behaviour in the C++; it is a no-op
here and is never exercised.) -/
def Tctx.pop (t : Tctx) : Tctx :=
  match t.stack with
  | [] => t
  | sn :: rest => { currState := t.currState.restoreAssignment sn, stack := rest }

/-- `tctx::commit()`: drop the most recent snapshot, keeping the
assignments made since. -/
def Tctx.commit (t : Tctx) : Tctx :=
  { t with stack := t.stack.tail }

/-- `tctx::update_assignment` on an mref, routed through the state. -/
def Tctx.assignMref (t : Tctx) (m : Nat) (v : Expr) : Tctx :=
  { t with currState := t.currState.assignMref m v }

/-- Assign a batch of mrefs in order. -/
def Tctx.assignAll (t : Tctx) (ps : List (Nat × Expr)) : Tctx :=
  ps.foldl (fun t' p => t'.assignMref p.1 p.2) t

/-- `blastenv::resolve(pr)`: while proof steps remain, resolve the top
step against the current state and partial proof (the opaque resolvers
of state.h are supplied as the interpretation `R`, which may update the
state); on success pop the step and continue with the new partial proof,
otherwise stop and report none to the driver. An empty stack returns the
accumulated proof. The C++ loop is unbounded (a resolver may push
steps), so fuel is explicit; `none` is fuel-out. -/
def resolveLoop (R : ProofStep → State → Expr → Option Expr × State) :
    Nat → State → Expr → Option (Option Expr × State)
  | 0, _, _ => none
  | fuel + 1, s, pr =>
    match s.proofSteps with
    | [] => some (some pr, s)
    | step :: _ =>
      match R step s pr with
      | (some pr', s') => resolveLoop R fuel s'.popProofStep pr'
      | (none, s') => some (none, s')

/-- From the spec's words (§4.4.2), for the refinement claim about
`resolve`: the result of popping steps while each accepts the accumulated
partial proof — `some` of the final proof when the stack empties, `none`
("incomplete") at the first step that rejects. -/
def resolveSpecResult (g : ProofStep → Expr → Option Expr) :
    List ProofStep → Expr → Option Expr
  | [], pr => some pr
  | st :: rest, pr =>
    match g st pr with
    | some pr' => resolveSpecResult g rest pr'
    | none => none

/-- From the spec's words (§4.4.2): the steps left on the stack — empty
when all resolve, otherwise the rejecting step and everything below it. -/
def resolveSpecRemaining (g : ProofStep → Expr → Option Expr) :
    List ProofStep → Expr → List ProofStep
  | [], _ => []
  | st :: rest, pr =>
    match g st pr with
    | some pr' => resolveSpecRemaining g rest pr'
    | none => st :: rest

/-- The driver-visible mutable data of `blastenv` used by `search`: the
current state and the choice-point stack. -/
structure Driver where
  currState : State
  choicePoints : List State
deriving DecidableEq

/-- The iterative-deepening loop of `blastenv::search`, with the inner
search `search_upto` abstracted (its actions — intros_action,
activate_hypothesis, assumption_action — live outside the source tree):
while `d ≤ maxD`, run the inner search at depth `d`; on success return
its proof; on failure advance `d` by `incD`, reset the current state to
the saved `s0` and clear the choice points; when `d` exceeds `maxD`,
return a negative result with the driver data as it stands. The depth,
`m_max_depth` and `m_inc_depth` are C++ `unsigned`, so the advance
`d += m_inc_depth` wraps modulo `2^32 = 4294967296`. The C++ loop is
unbounded when the depth sequence never exceeds `maxD` (e.g. `incD = 0`,
or wrapping combinations such as `incD = 2^31` with `maxD = 2^32 - 2`),
so fuel is explicit; `none` is fuel-out. -/
def searchAux (su : Nat → Driver → Option Expr × Driver)
    (maxD incD : Nat) (s0 : State) :
    Nat → Nat → Driver → Option (Option Expr × Driver)
  | 0, _, _ => none
  | fuel + 1, d, be =>
    if d ≤ maxD then
      match su d be with
      | (some r, be') => some (some r, be')
      | (none, _) =>
          searchAux su maxD incD s0 fuel ((d + incD) % 4294967296) ⟨s0, []⟩
    else some (none, be)

/-- `blastenv::search()`: save the starting state and run the
iterative-deepening loop from `initD` (wrapping unsigned depth
arithmetic as in `searchAux`). -/
def search (su : Nat → Driver → Option Expr × Driver)
    (maxD initD incD : Nat) (be : Driver) (fuel : Nat) :
    Option (Option Expr × Driver) :=
  searchAux su maxD incD be.currState fuel initD be


/-- One instantiation pass. Modelled from the spec:
`instantiate_urefs_mrefs` of state.cpp (not in the source tree)
"recursively substitutes assigned metavariables and universe
metavariables throughout an expression" (§4.1) — this is the single
substitution pass over levels. -/
def substLevelOnce (s : State) : Level → Level
  | .zero => .zero
  | .succ l => .succ (substLevelOnce s l)
  | .param n => .param n
  | .global n => .global n
  | .max a b => .max (substLevelOnce s a) (substLevelOnce s b)
  | .imax a b => .imax (substLevelOnce s a) (substLevelOnce s b)
  | .meta n => .meta n
  | .uref i =>
      match s.getUrefAssignment i with
      | some v => v
      | none => .uref i

/-- One instantiation pass over an expression: each assigned mref is
replaced by its recorded assignment, each assigned uref likewise;
everything else is rebuilt compositionally. -/
def substOnce (s : State) : Expr → Expr
  | .mref i =>
      match s.getMrefAssignment i with
      | some v => v
      | none => .mref i
  | .app f a => .app (substOnce s f) (substOnce s a)
  | .lam n d b => .lam n (substOnce s d) (substOnce s b)
  | .pi n d b => .pi n (substOnce s d) (substOnce s b)
  | .sort l => .sort (substLevelOnce s l)
  | .const n ls => .const n (ls.map (substLevelOnce s))
  | e => e

/-- Modelled from the spec: `instantiate_urefs_mrefs` (§4.1, state.cpp not
in the source tree) — substitution passes iterated to a fixed point,
bounded by fuel (assignments can in principle be mutually recursive). -/
def State.instUM (s : State) : Nat → Expr → Expr
  | 0, e => e
  | fuel + 1, e =>
    let e' := substOnce s e
    if e' = e then e else s.instUM fuel e'

/-- `to_tactic_proof_fn`: the externalizer. An href whose hypothesis
carries a value has the value inlined (recursively visited); an href
without one is kept (the base replace_visitor rebuilds the local
unchanged). A metavariable is instantiated through the state; if that
changes nothing it is returned as is, otherwise the instantiation is
visited. Everything else is rebuilt compositionally. Fuel bounds the
recursion depth (value inlining and assignment visiting recurse into
terms that are not subterms); at fuel 0 the term is returned unchanged. -/
def toTacticProofFn (s : State) : Nat → Expr → Expr
  | 0, e => e
  | fuel + 1, e =>
    match e with
    | .href i =>
        (match s.getHypothesisDecl i with
         | some h =>
             (match h.value with
              | some v => toTacticProofFn s fuel v
              | none => .href i)
         | none => .href i)
    | .mref i =>
        let v := s.instUM (fuel + 1) (.mref i)
        if v = .mref i then .mref i else toTacticProofFn s fuel v
    | .meta n =>
        let v := s.instUM (fuel + 1) (.meta n)
        if v = .meta n then .meta n else toTacticProofFn s fuel v
    | .app f a => .app (toTacticProofFn s fuel f) (toTacticProofFn s fuel a)
    | .lam n d b => .lam n (toTacticProofFn s fuel d) (toTacticProofFn s fuel b)
    | .pi n d b => .pi n (toTacticProofFn s fuel d) (toTacticProofFn s fuel b)
    | e => e

/-- Option lists, as consulted by `options::get_unsigned`. -/
abbrev BlastOptions := List (Name × Nat)

def getUnsignedOpt (o : BlastOptions) (n : Name) (dflt : Nat) : Nat :=
  match alookup n o with
  | some v => v
  | none => dflt

def blastMaxDepthName : Name := "blast.max_depth"
def blastInitDepthName : Name := "blast.init_depth"
def blastIncDepthName : Name := "blast.inc_depth"

/-- `get_blast_max_depth`: default 128. -/
def getBlastMaxDepth (o : BlastOptions) : Nat :=
  getUnsignedOpt o blastMaxDepthName 128

/-- `get_blast_init_depth`: default 1. -/
def getBlastInitDepth (o : BlastOptions) : Nat :=
  getUnsignedOpt o blastInitDepthName 1

/-- `get_blast_inc_depth`: default 5 — every unsigned value, including 0,
is accepted unchanged. -/
def getBlastIncDepth (o : BlastOptions) : Nat :=
  getUnsignedOpt o blastIncDepthName 5

/-- Concrete state for the non-atomicity scenario: `mref 0` with context
`{0}`, `mref 1` with context `{0, 1}`. -/
def sC10 : State :=
  { initState with
    metavarDecls := [(0, ⟨.sort .zero, [0]⟩), (1, ⟨.sort .zero, [0, 1]⟩)] }

/-- The value `(mref 1) (mref 0)` assigned to `mref 0`: the traversal first
restricts `mref 1`, then fails the occurs check on `mref 0`. -/
def vC10 : Expr := .app (.mref 1) (.mref 0)

/-- An inner search that always fails, for the driver witnesses. -/
def suFail : Nat → Driver → Option Expr × Driver := fun _ b => (none, b)

/-- A resolver interpretation that always reports "incomplete". -/
def rIncomplete : ProofStep → State → Expr → Option Expr × State :=
  fun _ s _ => (none, s)

/-- A state with a single pending proof step. -/
def sC7 : State := { initState with proofSteps := [7] }

/-- The type-checker oracle used in concrete runs: every inferred type is
`Sort 0`. -/
def inferSort : Expr → Expr := fun _ => .sort .zero

/-- The mapped hypothesis local `x` of the higher-order-pattern scenario. -/
def xC2 : Expr := .locl "x" false

/-- The non-local closed argument `f x` of the scenario. -/
def fxC2 : Expr := .app (.const "f" []) xC2

/-- The goal of the spec scenario "Higher-order-pattern rejection":
hypothesis `x : A`, target `?m (f x) x`. -/
def gC2 : Goal := ⟨[("x", .const "A" [])], .app (.app (.meta "m") fxC2) xC2⟩

/-- Projection: the internalized target of a successful `to_state` run. -/
def okTarget : Except BErr TBE → Option Expr
  | .ok t => some t.state.target
  | .error _ => none

/-- Projection: the metavariable declarations of a successful `to_state`
run. -/
def okMetavarDecls : Except BErr TBE → Option (List (Nat × MetavarDecl))
  | .ok t => some t.state.metavarDecls
  | .error _ => none

/-- An internalizer environment that has already seen `?m x`
(`m_mvar2meta_mref` maps `m` to that application and `mref 0`). -/
def tC3 : TBE :=
  ⟨initState, [], [("m", (.app (.meta "m") (.locl "x" false), .mref 0))], []⟩

/-- The re-encountered application `?m y`, for a local `y` distinct from
`x`. -/
def eC3 : Expr := .app (.meta "m") (.locl "y" false)

/-- State for the externalizer counterexample: `mref 0` is declared but
unassigned. -/
def sC5 : State := { initState with metavarDecls := [(0, ⟨.sort .zero, []⟩)] }

/-- State for the externalizer witness: `mref 0` assigned the external
local `h`. -/
def sC5w : State :=
  { initState with mrefAssignment := [(0, .locl "h" false)] }

/-- State for the href-externalization witness: hypothesis 0 retains the
source local `h`; hypothesis 1 carries the value `href 0` (inlined
recursively). -/
def sC6 : State :=
  { initState with hyps :=
      [(0, ⟨"h", .const "P" [], some (.locl "h" false)⟩),
       (1, ⟨"g", .const "Q" [], some (.href 0)⟩)] }

/-- State for the validation witness: `mref 0` with context `{0}`. -/
def sC4 : State :=
  { initState with metavarDecls := [(0, ⟨.sort .zero, [0]⟩)] }

lemma restoreAssignment_saveAssignment (s : State) :
    s.restoreAssignment s.saveAssignment = s := by
  simp [State.restoreAssignment, State.saveAssignment]

lemma assignAll_eq (ps : List (Nat × Expr)) : ∀ t : Tctx,
    t.assignAll ps
      = ⟨{ t.currState with
           mrefAssignment := t.currState.mrefAssignment ++ ps }, t.stack⟩ := by
  induction ps with
  | nil => intro t; simp [Tctx.assignAll]
  | cons p ps ih =>
      intro t
      have h1 : t.assignAll (p :: ps) = (t.assignMref p.1 p.2).assignAll ps := by
        simp [Tctx.assignAll]
      rw [h1, ih]
      simp [Tctx.assignMref, State.assignMref]

/-- C8: a `push` immediately followed by a `pop` is a no-op; mrefs that
were unassigned before a `push` are unassigned again after assigning them
and popping; and `push; push; pop; pop` restores the pre-outer state
exactly, with arbitrary assignments interleaved. -/
theorem C8_snapshot_rollback :
    (∀ t : Tctx, t.push.pop = t)
    ∧ (∀ (t : Tctx) (ps : List (Nat × Expr)) (m : Nat),
        t.currState.getMrefAssignment m = none →
        ((t.push.assignAll ps).pop).currState.getMrefAssignment m = none)
    ∧ (∀ (t : Tctx) (ps qs : List (Nat × Expr)),
        ((((t.push).assignAll ps).push).assignAll qs).pop.pop = t) := by
  refine ⟨?_, ?_, ?_⟩
  · intro t
    simp [Tctx.push, Tctx.pop, restoreAssignment_saveAssignment]
  · intro t ps m hm
    rw [Tctx.push, assignAll_eq]
    simp only [Tctx.pop]
    simp [State.restoreAssignment, State.saveAssignment, State.getMrefAssignment,
      List.take_left] at *
    exact hm
  · intro t ps qs
    rw [Tctx.push, assignAll_eq]
    rw [Tctx.push, assignAll_eq]
    simp only [Tctx.pop]
    simp [State.restoreAssignment, State.saveAssignment]
    rw [← List.append_assoc]
    rw [show t.currState.mrefAssignment.length + ps.length
          = (t.currState.mrefAssignment ++ ps).length by simp]
    rw [List.take_left, List.take_left]

/-- C10: `validate_assignment` is not atomic on rejection — on
`m = mref 0`, `v = (mref 1) (mref 0)`, the result is `false` (the occurs
check fails at the second argument), yet the admissible context of
`mref 1`, which was `{0, 1}`, has already been narrowed to `{0}` in the
returned state. -/
theorem C10_validate_not_atomic :
    (sC10.validateAssignment 0 [] vC10).1 = false
    ∧ (sC10.validateAssignment 0 [] vC10).2.getMetavarDecl 1
        = some ⟨.sort .zero, [0]⟩
    ∧ sC10.getMetavarDecl 1 = some ⟨.sort .zero, [0, 1]⟩ := by decide

lemma searchAux_step (su : Nat → Driver → Option Expr × Driver)
    (maxD incD : Nat) (s0 : State) (fuel d : Nat) (be : Driver)
    (hd : d ≤ maxD) (hfail : (su d be).1 = none) :
    searchAux su maxD incD s0 (fuel + 1) d be
      = searchAux su maxD incD s0 fuel ((d + incD) % 4294967296) ⟨s0, []⟩ := by
  rcases hsu : su d be with ⟨r1, r2⟩
  rw [hsu] at hfail
  simp at hfail
  subst hfail
  simp [searchAux, hd, hsu]

lemma searchAux_exit (su : Nat → Driver → Option Expr × Driver)
    (maxD incD : Nat) (s0 : State) (fuel d : Nat) (be : Driver)
    (hd : maxD < d) :
    searchAux su maxD incD s0 (fuel + 1) d be = some (none, be) := by
  have h : ¬ d ≤ maxD := Nat.not_le.mpr hd
  simp [searchAux, h]

lemma searchAux_total (su : Nat → Driver → Option Expr × Driver)
    (maxD incD : Nat) (s0 : State) (hinc : 1 ≤ incD)
    (hnw : maxD + incD < 4294967296) :
    ∀ (fuel d : Nat) (be : Driver), maxD < d + fuel →
      (searchAux su maxD incD s0 (fuel + 1) d be).isSome := by
  intro fuel
  induction fuel with
  | zero =>
      intro d be h
      rw [searchAux_exit su maxD incD s0 0 d be (by omega)]
      rfl
  | succ fuel ih =>
      intro d be h
      by_cases hd : d ≤ maxD
      · rcases hsu : su d be with ⟨r1, r2⟩
        cases r1 with
        | some r => simp [searchAux, hd, hsu]
        | none =>
            rw [searchAux_step su maxD incD s0 (fuel + 1) d be hd (by rw [hsu]),
              Nat.mod_eq_of_lt (by omega : d + incD < 4294967296)]
            exact ih (d + incD) ⟨s0, []⟩ (by omega)
      · rw [searchAux_exit su maxD incD s0 (fuel + 1) d be (by omega)]
        rfl

lemma searchAux_allFail (su : Nat → Driver → Option Expr × Driver)
    (maxD incD : Nat) (s0 : State) (hinc : 1 ≤ incD)
    (hnw : maxD + incD < 4294967296)
    (hf : ∀ d b, (su d b).1 = none) :
    ∀ (fuel d : Nat) (be : Driver), maxD < d + fuel →
      (searchAux su maxD incD s0 (fuel + 1) d be).map Prod.fst = some none := by
  intro fuel
  induction fuel with
  | zero =>
      intro d be h
      rw [searchAux_exit su maxD incD s0 0 d be (by omega)]
      rfl
  | succ fuel ih =>
      intro d be h
      by_cases hd : d ≤ maxD
      · rw [searchAux_step su maxD incD s0 (fuel + 1) d be hd (hf d be),
          Nat.mod_eq_of_lt (by omega : d + incD < 4294967296)]
        exact ih (d + incD) ⟨s0, []⟩ (by omega)
      · rw [searchAux_exit su maxD incD s0 (fuel + 1) d be (by omega)]
        rfl

lemma searchAux_wrap_cycle :
    ∀ fuel : Nat,
      searchAux suFail 4294967294 2147483648 initState fuel 1 ⟨initState, []⟩
          = none
      ∧ searchAux suFail 4294967294 2147483648 initState fuel 2147483649
          ⟨initState, []⟩ = none := by
  intro fuel
  induction fuel with
  | zero => exact ⟨rfl, rfl⟩
  | succ fuel ih =>
      constructor
      · rw [searchAux_step suFail 4294967294 2147483648 initState fuel 1
            ⟨initState, []⟩ (by norm_num) rfl,
          show (1 + 2147483648) % 4294967296 = 2147483649 by norm_num]
        exact ih.2
      · rw [searchAux_step suFail 4294967294 2147483648 initState fuel 2147483649
            ⟨initState, []⟩ (by norm_num) rfl,
          show (2147483649 + 2147483648) % 4294967296 = 1 by norm_num]
        exact ih.1

/-- C1 counterexample: with the wrapping unsigned depth arithmetic of
`blastenv::search`, at `inc_depth = 2^31`, `max_depth = 2^32 - 2`,
`init_depth = 1` and an always-failing inner search, the depth cycles
`1 → 2^31 + 1 → 1 → …` without ever exceeding `max_depth`, so the engine
does not return `none` although every iteration fails: here, concretely,
after `2^32 + 1` loop iterations — more than the `max_depth + 2` that
suffices for every configuration whose depth advance cannot wrap — the
loop is still running (`searchAux_wrap_cycle` gives the same at every
fuel bound). -/
theorem C1_wrap_divergence_cex :
    search suFail 4294967294 1 2147483648 ⟨initState, []⟩ 4294967297 = none :=
  (searchAux_wrap_cycle 4294967297).1

/-- C1 (amended): the driver performs iterative deepening — at a depth
within the budget, a failed inner iteration resets the state to the saved
`s0`, clears the choice points and advances the depth by `incD` with
wrapping unsigned addition; once the depth exceeds `maxD` the loop stops;
and when every inner iteration fails, the engine returns the negative
result `none` rather than an error, provided the depth advance cannot
wrap (`incD ≥ 1` and `maxD + incD < 2^32`) — for wrapping parameter
combinations the loop never exits (see the counterexample). -/
theorem C1_search_iterative_deepening
    (su : Nat → Driver → Option Expr × Driver) (maxD incD : Nat) (s0 : State) :
    (∀ (fuel d : Nat) (be : Driver), d ≤ maxD → (su d be).1 = none →
        searchAux su maxD incD s0 (fuel + 1) d be
          = searchAux su maxD incD s0 fuel ((d + incD) % 4294967296) ⟨s0, []⟩)
    ∧ (∀ (fuel d : Nat) (be : Driver), maxD < d →
        searchAux su maxD incD s0 (fuel + 1) d be = some (none, be))
    ∧ (1 ≤ incD → maxD + incD < 4294967296 → (∀ d b, (su d b).1 = none) →
        ∀ (initD : Nat) (be : Driver),
          (search su maxD initD incD be (maxD + 2)).map Prod.fst = some none) := by
  refine ⟨?_, ?_, ?_⟩
  · intro fuel d be hd hfail
    exact searchAux_step su maxD incD s0 fuel d be hd hfail
  · intro fuel d be hd
    exact searchAux_exit su maxD incD s0 fuel d be hd
  · intro hinc hnw hf initD be
    exact searchAux_allFail su maxD incD be.currState hinc hnw hf (maxD + 1)
      initD be (by omega)

theorem C1_search_iterative_deepening_witness :
    1 ≤ 1 ∧ 3 + 1 < 4294967296
    ∧ (search suFail 3 1 1 ⟨initState, []⟩ 5).map Prod.fst = some none :=
  ⟨by decide, by decide,
   (C1_search_iterative_deepening suFail 3 1 initState).2.2 (by decide)
     (by decide) (fun _ _ => rfl) 1 ⟨initState, []⟩⟩

/-- C9 counterexample: `inc_depth = 2^31` satisfies `inc_depth ≥ 1` and is
accepted unchanged by the options interface, yet with
`max_depth = 2^32 - 2` the wrapping depth sequence `1 → 2^31 + 1 → 1 → …`
never exceeds `max_depth`: concretely, the loop is still running after
`2^32 + 1` iterations, beyond the `max_depth + 2` bound that terminates
every non-wrapping configuration (and `searchAux_wrap_cycle` gives the
same at every fuel bound) — `inc_depth ≥ 1` alone does not make the loop
terminate. -/
theorem C9_wrap_nontermination_cex :
    1 ≤ 2147483648
    ∧ getBlastIncDepth [(blastIncDepthName, 2147483648)] = 2147483648
    ∧ searchAux suFail 4294967294 2147483648 initState 4294967297 1
        ⟨initState, []⟩ = none :=
  ⟨by decide, rfl, (searchAux_wrap_cycle 4294967297).1⟩

/-- C9 (amended): the depth loop of `search` terminates — within fuel
`maxD + 2` — whenever `inc_depth ≥ 1` *and* the advance cannot wrap
(`max_depth + inc_depth < 2^32`); `inc_depth ≥ 1` alone is not sufficient
because the unsigned addition wraps (see the counterexample), but it
remains necessary: with `inc_depth = 0` the depth never advances and no
amount of fuel finishes the loop. The options interface accepts every
unsigned value unchanged, including 0 and `2^31`. -/
theorem C9_inc_depth_termination
    (su : Nat → Driver → Option Expr × Driver) (maxD : Nat) (s0 : State) :
    (∀ incD, 1 ≤ incD → maxD + incD < 4294967296 →
        ∀ (initD : Nat) (be : Driver),
          (search su maxD initD incD be (maxD + 2)).isSome)
    ∧ ((∀ d b, (su d b).1 = none) →
        ∀ (fuel d : Nat) (be : Driver), d ≤ maxD → d < 4294967296 →
          searchAux su maxD 0 s0 fuel d be = none)
    ∧ getBlastIncDepth [(blastIncDepthName, 0)] = 0
    ∧ getBlastIncDepth [(blastIncDepthName, 2147483648)] = 2147483648 := by
  refine ⟨?_, ?_, rfl, rfl⟩
  · intro incD hinc hnw initD be
    exact searchAux_total su maxD incD be.currState hinc hnw (maxD + 1) initD be
      (by omega)
  · intro hf fuel
    induction fuel with
    | zero => intro d be _ _; rfl
    | succ fuel ih =>
        intro d be hd hlt
        rw [searchAux_step su maxD 0 s0 fuel d be hd (hf d be),
          Nat.add_zero, Nat.mod_eq_of_lt hlt]
        exact ih d ⟨s0, []⟩ hd hlt

theorem C9_inc_depth_termination_witness :
    (search suFail 3 1 1 ⟨initState, []⟩ 5).isSome = true
    ∧ searchAux suFail 3 0 initState 7 1 ⟨initState, []⟩ = none
    ∧ getBlastIncDepth [(blastIncDepthName, 0)] = 0 :=
  ⟨(C9_inc_depth_termination suFail 3 initState).1 1 (by decide) (by decide) 1
     ⟨initState, []⟩,
   (C9_inc_depth_termination suFail 3 initState).2.1 (fun _ _ => rfl) 7 1
     ⟨initState, []⟩ (by decide) (by decide),
   (C9_inc_depth_termination suFail 3 initState).2.2.1⟩

/-- C7: `resolve` pops proof steps while each accepts the accumulated
partial proof — an empty stack returns the proof; a step whose resolver
reports "incomplete" is left on the stack and `none` is returned to the
driver; and for state-preserving resolvers the loop computes exactly the
pop-while-accepting recursion of the spec, returning the accumulated
proof of the original goal when the stack empties. -/
theorem C7_resolve_loop (R : ProofStep → State → Expr → Option Expr × State) :
    (∀ (fuel : Nat) (s : State) (pr : Expr), s.proofSteps = [] →
        resolveLoop R (fuel + 1) s pr = some (some pr, s))
    ∧ (∀ (fuel : Nat) (s : State) (pr : Expr) (step : ProofStep)
          (rest : List ProofStep) (s' : State),
        s.proofSteps = step :: rest → R step s pr = (none, s') →
        resolveLoop R (fuel + 1) s pr = some (none, s'))
    ∧ (∀ (g : ProofStep → Expr → Option Expr),
        (∀ st s pr, R st s pr = (g st pr, s)) →
        ∀ (steps : List ProofStep) (s : State) (pr : Expr) (fuel : Nat),
          s.proofSteps = steps → steps.length < fuel →
          resolveLoop R fuel s pr
            = some (resolveSpecResult g steps pr,
                    { s with proofSteps := resolveSpecRemaining g steps pr })) := by
  refine ⟨?_, ?_, ?_⟩
  · intro fuel s pr h
    simp [resolveLoop, h]
  · intro fuel s pr step rest s' h hR
    simp [resolveLoop, h, hR]
  · intro g hR steps
    induction steps with
    | nil =>
        intro s pr fuel hs hf
        cases fuel with
        | zero => simp at hf
        | succ fuel =>
            have hs' : { s with proofSteps := ([] : List ProofStep) } = s := by
              rw [← hs]
            simp [resolveLoop, hs, resolveSpecResult, resolveSpecRemaining, hs']
    | cons st rest ih =>
        intro s pr fuel hs hf
        cases fuel with
        | zero => simp at hf
        | succ fuel =>
            cases hg : g st pr with
            | none =>
                have hs' : { s with proofSteps := st :: rest } = s := by
                  rw [← hs]
                simp [resolveLoop, hs, hR st s pr, hg, resolveSpecResult,
                  resolveSpecRemaining, hs']
            | some pr2 =>
                have hpop : s.popProofStep = { s with proofSteps := rest } := by
                  simp [State.popProofStep, hs]
                have := ih { s with proofSteps := rest } pr2 fuel rfl (by simp at hf ⊢; omega)
                simp [resolveLoop, hs, hR st s pr, hg, hpop, this,
                  resolveSpecResult, resolveSpecRemaining]

theorem C7_resolve_loop_witness :
    sC7.proofSteps = 7 :: []
    ∧ resolveLoop rIncomplete 4 sC7 (.var 0) = some (none, sC7) :=
  ⟨rfl,
   (C7_resolve_loop rIncomplete).2.1 3 sC7 (.var 0) 7 [] sC7 rfl rfl⟩

/-- C3: on a second encounter with the same external metavariable, the
recorded argument list must match the new application positionally (a
recorded local only a local of the same name, anything else only a
structurally equal argument, and the recorded list must not be longer);
any mismatch makes the internalizer fail with the unsupported
metavariable occurrence error. -/
theorem C3_reencounter_mismatch (infer : Expr → Expr) (fuel : Nat) (t : TBE)
    (e e0 mr : Expr) (mname : Name)
    (hm : isMeta e = true)
    (hfn : getAppFn e = .meta mname)
    (hlook : alookup mname t.mvar2metaMref = some (e0, mr))
    (hmis : prefixOk (getAppArgsList e0) (getAppArgsList e) = false) :
    visitB infer (fuel + 1) e t = .error (.unsupported e) := by
  simp [visitB, visitStep, hm, hfn, hlook, hmis]

theorem C3_reencounter_mismatch_witness :
    isMeta eC3 = true
    ∧ getAppFn eC3 = .meta "m"
    ∧ alookup "m" tC3.mvar2metaMref
        = some (.app (.meta "m") (.locl "x" false), .mref 0)
    ∧ prefixOk (getAppArgsList (.app (.meta "m") (.locl "x" false)))
        (getAppArgsList eC3) = false
    ∧ visitB inferSort 5 eC3 tC3 = .error (.unsupported eC3) :=
  ⟨by decide, by decide, by decide, by decide,
   C3_reencounter_mismatch inferSort 4 tC3 eC3
     (.app (.meta "m") (.locl "x" false)) (.mref 0) "m"
     (by decide) (by decide) (by decide) (by decide)⟩

/-- C2 counterexample: the spec scenario "input goal with metavariable
application `?m (f x) x` (first argument not a local) → fails with
unsupported metavariable occurrence" does not fail: internalizing the
goal succeeds, the target becomes the bare `mref 0`, and the mref's
admissible context is `{href 0}` — the non-local closed argument `f x`
was ignored, not rejected. -/
theorem C2_pattern_rejection_cex :
    okTarget (toState (fun e => e) inferSort 20 gC2) = some (.mref 0)
    ∧ okMetavarDecls (toState (fun e => e) inferSort 20 gC2)
        = some [(0, ⟨.sort .zero, [0]⟩)] := by decide

/-- C2 (amended): on a first encounter, the prefix is the maximal closed
prefix of the arguments; a closed local argument that is not yet mapped
to an href (and is not a duplicate) fails with the unsupported
metavariable occurrence error; a closed non-local argument is skipped
(ignored, not rejected); a duplicate local is skipped; a mapped local
contributes its href to the context; the prefix ends at the first
non-closed argument; and a collection error propagates out of the
internalizer as that same error. -/
theorem C2_pattern_collection_amended :
    (∀ (l2h : List (Name × Expr)) (e0 : Expr) (n : Name) (tmp : Bool)
        (rest prev : List Expr) (acc : List Nat),
        alookup n l2h = none →
        prev.any (fun p => decide (p.mlocalName? = some n)) = false →
        collectCtx l2h e0 (.locl n tmp :: rest) prev acc
          = .error (.unsupported e0))
    ∧ (∀ (l2h : List (Name × Expr)) (e0 a : Expr)
        (rest prev : List Expr) (acc : List Nat),
        a.closed = true → a.isLocal = false →
        collectCtx l2h e0 (a :: rest) prev acc
          = collectCtx l2h e0 rest (prev ++ [a]) acc)
    ∧ (∀ (l2h : List (Name × Expr)) (e0 : Expr) (n : Name) (tmp : Bool)
        (rest prev : List Expr) (acc : List Nat),
        prev.any (fun p => decide (p.mlocalName? = some n)) = true →
        collectCtx l2h e0 (.locl n tmp :: rest) prev acc
          = collectCtx l2h e0 rest (prev ++ [.locl n tmp]) acc)
    ∧ (∀ (l2h : List (Name × Expr)) (e0 h : Expr) (n : Name) (tmp : Bool)
        (rest prev : List Expr) (acc : List Nat),
        alookup n l2h = some h →
        prev.any (fun p => decide (p.mlocalName? = some n)) = false →
        collectCtx l2h e0 (.locl n tmp :: rest) prev acc
          = collectCtx l2h e0 rest (prev ++ [.locl n tmp]) (hrefIdx h :: acc))
    ∧ (∀ (l2h : List (Name × Expr)) (e0 a : Expr)
        (rest prev : List Expr) (acc : List Nat),
        a.closed = false →
        collectCtx l2h e0 (a :: rest) prev acc = .ok (acc.reverse, prev.length))
    ∧ (∀ (infer : Expr → Expr) (fuel : Nat) (t : TBE) (e : Expr)
        (mname : Name) (err : BErr),
        isMeta e = true → getAppFn e = .meta mname →
        alookup mname t.mvar2metaMref = none →
        collectCtx t.local2href e (getAppArgsList e) [] [] = .error err →
        visitB infer (fuel + 1) e t = .error err) := by
  refine ⟨?_, ?_, ?_, ?_, ?_, ?_⟩
  · intro l2h e0 n tmp rest prev acc hl hdup
    simp [collectCtx, Expr.closed, Expr.closedAt, hdup, hl]
  · intro l2h e0 a rest prev acc hcl hloc
    cases a <;> simp_all [collectCtx, Expr.closed, Expr.closedAt, Expr.isLocal]
  · intro l2h e0 n tmp rest prev acc hdup
    simp [collectCtx, Expr.closed, Expr.closedAt, hdup]
  · intro l2h e0 h n tmp rest prev acc hl hdup
    simp [collectCtx, Expr.closed, Expr.closedAt, hdup, hl]
  · intro l2h e0 a rest prev acc hcl
    simp [collectCtx, hcl]
  · intro infer fuel t e mname err hm hfn hlook hcoll
    simp [visitB, visitStep, hm, hfn, hlook, hcoll]

theorem C2_pattern_collection_amended_witness :
    alookup "y" ([] : List (Name × Expr)) = none
    ∧ collectCtx [] (.meta "m") [.locl "y" false] [] []
        = .error (.unsupported (.meta "m"))
    ∧ fxC2.closed = true ∧ fxC2.isLocal = false
    ∧ collectCtx [("x", Expr.href 0)] (.meta "m") [fxC2] [] []
        = collectCtx [("x", Expr.href 0)] (.meta "m") [] [fxC2] [] :=
  ⟨by decide,
   C2_pattern_collection_amended.1 [] (.meta "m") "y" false [] [] []
     (by decide) (by decide),
   by decide, by decide,
   C2_pattern_collection_amended.2.1 [("x", Expr.href 0)] (.meta "m") fxC2 [] [] []
     (by decide) (by decide)⟩

lemma listInter_idem (l c : List Nat) :
    listInter (listInter l c) c = listInter l c := by
  simp [listInter, List.filter_filter]

lemma alookup_update {β : Type} (l : List (Nat × β)) (i : Nat) (x : β) (j : Nat) :
    alookup j (l.map (fun p => if p.1 = i then (p.1, x) else p))
      = if j = i then (alookup j l).map (fun _ => x) else alookup j l := by
  induction l with
  | nil => simp [alookup]
  | cons p l ih =>
      rcases p with ⟨k, v⟩
      have hfp : (if (k, v).1 = i then ((k, v).1, x) else (k, v))
          = if k = i then (k, x) else (k, v) := rfl
      rw [List.map_cons, hfp]
      by_cases hk : k = i
      · rw [if_pos hk]
        have h1 : alookup j ((k, x) :: l.map (fun p => if p.1 = i then (p.1, x) else p))
            = if k = j then some x
              else alookup j (l.map (fun p => if p.1 = i then (p.1, x) else p)) := rfl
        have h2 : alookup j ((k, v) :: l) = if k = j then some v else alookup j l := rfl
        rw [h1, ih, h2]
        split_ifs <;> simp_all
      · rw [if_neg hk]
        have h1 : alookup j ((k, v) :: l.map (fun p => if p.1 = i then (p.1, x) else p))
            = if k = j then some v
              else alookup j (l.map (fun p => if p.1 = i then (p.1, x) else p)) := rfl
        have h2 : alookup j ((k, v) :: l) = if k = j then some v else alookup j l := rfl
        rw [h1, ih, h2]
        split_ifs <;> simp_all

lemma restrict_decl (s : State) (m' m j : Nat) (dm : MetavarDecl)
    (hm : s.getMetavarDecl m = some dm) :
    (s.restrictMrefContextUsing m' m).getMetavarDecl j
      = if j = m'
        then (s.getMetavarDecl j).map
            (fun dj => ⟨dj.type, listInter dj.context dm.context⟩)
        else s.getMetavarDecl j := by
  cases hd' : s.getMetavarDecl m' with
  | none =>
      have hr : s.restrictMrefContextUsing m' m = s := by
        simp [State.restrictMrefContextUsing, hd', hm]
      rw [hr]
      by_cases h : j = m'
      · subst h; rw [if_pos rfl, hd']; rfl
      · rw [if_neg h]
  | some d' =>
      have hr : s.restrictMrefContextUsing m' m
          = { s with metavarDecls := s.metavarDecls.map fun p =>
                if p.1 = m' then (p.1, ⟨d'.type, listInter d'.context dm.context⟩) else p } := by
        simp [State.restrictMrefContextUsing, hd', hm]
      rw [hr]
      show alookup j _ = _
      rw [alookup_update]
      by_cases h : j = m'
      · subst h
        rw [if_pos rfl, if_pos rfl]
        have hd2 : alookup j s.metavarDecls = some d' := hd'
        rw [hd2, hd']
        rfl
      · rw [if_neg h, if_neg h]
        rfl

lemma seq_false_iff (X : Bool × State) (Y : State → Bool × State) (P Q : Prop)
    (hX : X.1 = false ↔ P) (hY : ∀ s, (Y s).1 = false ↔ Q) :
    (if X.1 = true then Y X.2 else X).1 = false ↔ (P ∨ Q) := by
  by_cases h : X.1 = true
  · rw [if_pos h, hY]
    have hnP : ¬ P := by rw [← hX, h]; simp
    tauto
  · have h' : X.1 = false := by revert h; cases X.1 <;> simp
    have hP : P := hX.1 h'
    rw [if_neg h, h']
    simp [hP]

lemma or3_merge (Ef Lf Mf Ea La Ma : Prop) :
    ((Ef ∨ Lf ∨ Mf) ∨ (Ea ∨ La ∨ Ma)) ↔ ((Ef ∨ Ea) ∨ (Lf ∨ La) ∨ (Mf ∨ Ma)) := by
  tauto

lemma validateVisit_false_iff (ctx : List Nat) (m : Nat) (locals : List Name) :
    ∀ (e : Expr) (s : State),
      (validateVisit ctx m locals e s).1 = false ↔
        (∃ i ∈ e.hrefList, i ∉ ctx)
        ∨ (∃ n ∈ e.nonTmpLocalList, n ∉ locals)
        ∨ m ∈ e.mrefList := by
  intro e
  induction e with
  | var i => intro s; simp [validateVisit, Expr.hrefList, Expr.nonTmpLocalList, Expr.mrefList]
  | sort l => intro s; simp [validateVisit, Expr.hrefList, Expr.nonTmpLocalList, Expr.mrefList]
  | const n ls => intro s; simp [validateVisit, Expr.hrefList, Expr.nonTmpLocalList, Expr.mrefList]
  | meta n => intro s; simp [validateVisit, Expr.hrefList, Expr.nonTmpLocalList, Expr.mrefList]
  | href i =>
      intro s
      by_cases h : i ∈ ctx <;>
        simp [validateVisit, h, Expr.hrefList, Expr.nonTmpLocalList, Expr.mrefList]
  | locl n tmp =>
      intro s
      cases tmp with
      | true => simp [validateVisit, Expr.hrefList, Expr.nonTmpLocalList, Expr.mrefList]
      | false =>
          by_cases h : n ∈ locals <;>
            simp [validateVisit, h, Expr.hrefList, Expr.nonTmpLocalList, Expr.mrefList]
  | mref i =>
      intro s
      by_cases h : i = m
      · simp [validateVisit, h, Expr.hrefList, Expr.nonTmpLocalList, Expr.mrefList]
      · simp [validateVisit, h, Expr.hrefList, Expr.nonTmpLocalList, Expr.mrefList]
        omega
  | app f a ihf iha =>
      intro s
      have h := seq_false_iff (validateVisit ctx m locals f s)
        (validateVisit ctx m locals a) _ _ (ihf s) iha
      rw [show validateVisit ctx m locals (.app f a) s
            = (if (validateVisit ctx m locals f s).1 = true
               then validateVisit ctx m locals a (validateVisit ctx m locals f s).2
               else validateVisit ctx m locals f s) from rfl]
      rw [h]
      simp only [Expr.hrefList, Expr.nonTmpLocalList, Expr.mrefList, List.mem_append,
        or_and_right, exists_or]
      exact or3_merge _ _ _ _ _ _
  | lam n d b ihd ihb =>
      intro s
      have h := seq_false_iff (validateVisit ctx m locals d s)
        (validateVisit ctx m locals b) _ _ (ihd s) ihb
      rw [show validateVisit ctx m locals (.lam n d b) s
            = (if (validateVisit ctx m locals d s).1 = true
               then validateVisit ctx m locals b (validateVisit ctx m locals d s).2
               else validateVisit ctx m locals d s) from rfl]
      rw [h]
      simp only [Expr.hrefList, Expr.nonTmpLocalList, Expr.mrefList, List.mem_append,
        or_and_right, exists_or]
      exact or3_merge _ _ _ _ _ _
  | pi n d b ihd ihb =>
      intro s
      have h := seq_false_iff (validateVisit ctx m locals d s)
        (validateVisit ctx m locals b) _ _ (ihd s) ihb
      rw [show validateVisit ctx m locals (.pi n d b) s
            = (if (validateVisit ctx m locals d s).1 = true
               then validateVisit ctx m locals b (validateVisit ctx m locals d s).2
               else validateVisit ctx m locals d s) from rfl]
      rw [h]
      simp only [Expr.hrefList, Expr.nonTmpLocalList, Expr.mrefList, List.mem_append,
        or_and_right, exists_or]
      exact or3_merge _ _ _ _ _ _

lemma validateVisit_narrow (m : Nat) (locals : List Name) (d : MetavarDecl) :
    ∀ (e : Expr) (s : State), s.getMetavarDecl m = some d →
      (validateVisit d.context m locals e s).1 = true →
      ∀ j : Nat, (validateVisit d.context m locals e s).2.getMetavarDecl j
          = if j ∈ e.mrefList
            then (s.getMetavarDecl j).map
                (fun dj => ⟨dj.type, listInter dj.context d.context⟩)
            else s.getMetavarDecl j := by
  intro e
  induction e with
  | var i => intro s hm htrue j; simp [validateVisit, Expr.mrefList]
  | sort l => intro s hm htrue j; simp [validateVisit, Expr.mrefList]
  | const n ls => intro s hm htrue j; simp [validateVisit, Expr.mrefList]
  | meta n => intro s hm htrue j; simp [validateVisit, Expr.mrefList]
  | href i =>
      intro s hm htrue j
      by_cases h : i ∈ d.context
      · simp [validateVisit, h, Expr.mrefList]
      · simp [validateVisit, h] at htrue
  | locl n tmp =>
      intro s hm htrue j
      cases tmp with
      | true => simp [validateVisit, Expr.mrefList]
      | false =>
          by_cases h : n ∈ locals
          · simp [validateVisit, h, Expr.mrefList]
          · simp [validateVisit, h] at htrue
  | mref i =>
      intro s hm htrue j
      by_cases h : i = m
      · simp [validateVisit, h] at htrue
      · have h2 : validateVisit d.context m locals (.mref i) s
            = (true, s.restrictMrefContextUsing i m) := by
          simp [validateVisit, h]
        rw [h2]
        simp only [Expr.mrefList, List.mem_singleton]
        exact restrict_decl s i m j d hm
  | app f a ihf iha =>
      intro s hm htrue j
      have hsplit : validateVisit d.context m locals (.app f a) s
          = (if (validateVisit d.context m locals f s).1 = true
             then validateVisit d.context m locals a
               (validateVisit d.context m locals f s).2
             else validateVisit d.context m locals f s) := rfl
      by_cases hf : (validateVisit d.context m locals f s).1 = true
      · have hmf : m ∉ f.mrefList := by
          intro hmem
          have hc := (validateVisit_false_iff d.context m locals f s).2
            (Or.inr (Or.inr hmem))
          rw [hf] at hc
          simp at hc
        have hd1 := ihf s hm hf
        have hm1 : (validateVisit d.context m locals f s).2.getMetavarDecl m
            = some d := by
          rw [hd1 m, if_neg hmf]
          exact hm
        have htrue' : (validateVisit d.context m locals a
            (validateVisit d.context m locals f s).2).1 = true := by
          rw [hsplit, if_pos hf] at htrue
          exact htrue
        have hd2 := iha _ hm1 htrue'
        rw [hsplit, if_pos hf, hd2 j, hd1 j]
        simp only [Expr.mrefList, List.mem_append]
        rcases Decidable.em (j ∈ f.mrefList) with hjf | hjf <;>
          rcases Decidable.em (j ∈ a.mrefList) with hja | hja
        · simp only [hjf, hja, if_true, true_or, if_pos]
          cases s.getMetavarDecl j with
          | none => rfl
          | some dj => simp [listInter_idem]
        · simp [hjf, hja]
        · simp [hjf, hja]
        · simp [hjf, hja]
      · rw [hsplit, if_neg hf] at htrue
        exact absurd htrue hf
  | lam n dd b ihd ihb =>
      intro s hm htrue j
      have hsplit : validateVisit d.context m locals (.lam n dd b) s
          = (if (validateVisit d.context m locals dd s).1 = true
             then validateVisit d.context m locals b
               (validateVisit d.context m locals dd s).2
             else validateVisit d.context m locals dd s) := rfl
      by_cases hf : (validateVisit d.context m locals dd s).1 = true
      · have hmf : m ∉ dd.mrefList := by
          intro hmem
          have hc := (validateVisit_false_iff d.context m locals dd s).2
            (Or.inr (Or.inr hmem))
          rw [hf] at hc
          simp at hc
        have hd1 := ihd s hm hf
        have hm1 : (validateVisit d.context m locals dd s).2.getMetavarDecl m
            = some d := by
          rw [hd1 m, if_neg hmf]
          exact hm
        have htrue' : (validateVisit d.context m locals b
            (validateVisit d.context m locals dd s).2).1 = true := by
          rw [hsplit, if_pos hf] at htrue
          exact htrue
        have hd2 := ihb _ hm1 htrue'
        rw [hsplit, if_pos hf, hd2 j, hd1 j]
        simp only [Expr.mrefList, List.mem_append]
        rcases Decidable.em (j ∈ dd.mrefList) with hjf | hjf <;>
          rcases Decidable.em (j ∈ b.mrefList) with hja | hja
        · simp only [hjf, hja, if_true, true_or, if_pos]
          cases s.getMetavarDecl j with
          | none => rfl
          | some dj => simp [listInter_idem]
        · simp [hjf, hja]
        · simp [hjf, hja]
        · simp [hjf, hja]
      · rw [hsplit, if_neg hf] at htrue
        exact absurd htrue hf
  | pi n dd b ihd ihb =>
      intro s hm htrue j
      have hsplit : validateVisit d.context m locals (.pi n dd b) s
          = (if (validateVisit d.context m locals dd s).1 = true
             then validateVisit d.context m locals b
               (validateVisit d.context m locals dd s).2
             else validateVisit d.context m locals dd s) := rfl
      by_cases hf : (validateVisit d.context m locals dd s).1 = true
      · have hmf : m ∉ dd.mrefList := by
          intro hmem
          have hc := (validateVisit_false_iff d.context m locals dd s).2
            (Or.inr (Or.inr hmem))
          rw [hf] at hc
          simp at hc
        have hd1 := ihd s hm hf
        have hm1 : (validateVisit d.context m locals dd s).2.getMetavarDecl m
            = some d := by
          rw [hd1 m, if_neg hmf]
          exact hm
        have htrue' : (validateVisit d.context m locals b
            (validateVisit d.context m locals dd s).2).1 = true := by
          rw [hsplit, if_pos hf] at htrue
          exact htrue
        have hd2 := ihb _ hm1 htrue'
        rw [hsplit, if_pos hf, hd2 j, hd1 j]
        simp only [Expr.mrefList, List.mem_append]
        rcases Decidable.em (j ∈ dd.mrefList) with hjf | hjf <;>
          rcases Decidable.em (j ∈ b.mrefList) with hja | hja
        · simp only [hjf, hja, if_true, true_or, if_pos]
          cases s.getMetavarDecl j with
          | none => rfl
          | some dj => simp [listInter_idem]
        · simp [hjf, hja]
        · simp [hjf, hja]
        · simp [hjf, hja]
      · rw [hsplit, if_neg hf] at htrue
        exact absurd htrue hf

/-- C4: `validate_assignment(m, locals, v)` returns false exactly when
some href of `v` is outside `m`'s admissible context, some non-temporary
external local of `v` is outside `locals`, or `m` itself occurs in `v`;
and when it returns true, every other mref occurring in `v` has had its
admissible context narrowed (side-effectingly) to the intersection with
`m`'s context — a subset of `m`'s context — rather than causing a false
result. -/
theorem C4_validate_assignment (s : State) (m : Nat) (locals : List Name)
    (v : Expr) (d : MetavarDecl) (hd : s.getMetavarDecl m = some d) :
    ((s.validateAssignment m locals v).1 = false ↔
        (∃ i ∈ v.hrefList, i ∉ d.context)
        ∨ (∃ n ∈ v.nonTmpLocalList, n ∉ locals)
        ∨ m ∈ v.mrefList)
    ∧ ((s.validateAssignment m locals v).1 = true →
        ∀ (j : Nat) (dj : MetavarDecl), s.getMetavarDecl j = some dj →
          j ∈ v.mrefList →
          (s.validateAssignment m locals v).2.getMetavarDecl j
            = some ⟨dj.type, listInter dj.context d.context⟩) := by
  have hva : s.validateAssignment m locals v = validateVisit d.context m locals v s := by
    simp [State.validateAssignment, hd]
  constructor
  · rw [hva]
    exact validateVisit_false_iff d.context m locals v s
  · intro htrue j dj hj hjm
    rw [hva] at htrue ⊢
    have h := validateVisit_narrow m locals d v s hd htrue j
    rw [h, if_pos hjm, hj]
    rfl

theorem C4_validate_assignment_witness :
    sC4.getMetavarDecl 0 = some ⟨.sort .zero, [0]⟩
    ∧ (sC4.validateAssignment 0 [] (.href 1)).1 = false :=
  ⟨by decide,
   (C4_validate_assignment sC4 0 [] (.href 1) ⟨.sort .zero, [0]⟩ (by decide)).1.mpr
     (Or.inl ⟨1, by decide, by decide⟩)⟩

lemma map_id_of_mem {α : Type} (f : α → α) :
    ∀ l : List α, (∀ x ∈ l, f x = x) → l.map f = l := by
  intro l
  induction l with
  | nil => intro _; rfl
  | cons x l ih =>
      intro h
      rw [List.map_cons, h x (by simp), ih (fun y hy => h y (by simp [hy]))]

lemma substLevelOnce_id (s : State) :
    ∀ l : Level, (∀ u ∈ l.urefList, s.getUrefAssignment u = none) →
      substLevelOnce s l = l := by
  intro l
  induction l with
  | zero => intro _; rfl
  | succ l ih =>
      intro h
      rw [substLevelOnce, ih (fun u hu => h u (by simpa [Level.urefList] using hu))]
  | param n => intro _; rfl
  | global n => intro _; rfl
  | max a b iha ihb =>
      intro h
      rw [substLevelOnce, iha (fun u hu => h u (by simp [Level.urefList, hu])),
        ihb (fun u hu => h u (by simp [Level.urefList, hu]))]
  | imax a b iha ihb =>
      intro h
      rw [substLevelOnce, iha (fun u hu => h u (by simp [Level.urefList, hu])),
        ihb (fun u hu => h u (by simp [Level.urefList, hu]))]
  | meta n => intro _; rfl
  | uref i =>
      intro h
      have := h i (by simp [Level.urefList])
      simp [substLevelOnce, this]

lemma substOnce_id (s : State) :
    ∀ e : Expr, (∀ j ∈ e.mrefList, s.getMrefAssignment j = none) →
      (∀ u ∈ e.urefList, s.getUrefAssignment u = none) →
      substOnce s e = e := by
  intro e
  induction e with
  | var i => intro _ _; rfl
  | sort l =>
      intro _ hu
      rw [substOnce, substLevelOnce_id s l (fun u h => hu u (by simpa [Expr.urefList] using h))]
  | const n ls =>
      intro _ hu
      rw [substOnce, map_id_of_mem]
      intro l hl
      refine substLevelOnce_id s l (fun u h => hu u ?_)
      simp only [Expr.urefList, List.mem_flatten]
      exact ⟨l.urefList, List.mem_map_of_mem Level.urefList hl, h⟩
  | app f a ihf iha =>
      intro hm hu
      rw [substOnce, ihf (fun j h => hm j (by simp [Expr.mrefList, h]))
          (fun u h => hu u (by simp [Expr.urefList, h])),
        iha (fun j h => hm j (by simp [Expr.mrefList, h]))
          (fun u h => hu u (by simp [Expr.urefList, h]))]
  | lam n dd b ihd ihb =>
      intro hm hu
      rw [substOnce, ihd (fun j h => hm j (by simp [Expr.mrefList, h]))
          (fun u h => hu u (by simp [Expr.urefList, h])),
        ihb (fun j h => hm j (by simp [Expr.mrefList, h]))
          (fun u h => hu u (by simp [Expr.urefList, h]))]
  | pi n dd b ihd ihb =>
      intro hm hu
      rw [substOnce, ihd (fun j h => hm j (by simp [Expr.mrefList, h]))
          (fun u h => hu u (by simp [Expr.urefList, h])),
        ihb (fun j h => hm j (by simp [Expr.mrefList, h]))
          (fun u h => hu u (by simp [Expr.urefList, h]))]
  | locl n tmp => intro _ _; rfl
  | meta n => intro _ _; rfl
  | href i => intro _ _; rfl
  | mref i =>
      intro hm _
      have := hm i (by simp [Expr.mrefList])
      simp [substOnce, this]

lemma instUM_eq_of_fixed (s : State) (e : Expr) (h : substOnce s e = e) :
    ∀ fuel : Nat, s.instUM fuel e = e := by
  intro fuel
  cases fuel with
  | zero => rfl
  | succ fuel => simp [State.instUM, h]

lemma toTacticProofFn_id (s : State) :
    ∀ (e : Expr) (fuel : Nat), e.hrefList = [] →
      (∀ j ∈ e.mrefList, s.getMrefAssignment j = none) →
      toTacticProofFn s fuel e = e := by
  intro e
  induction e with
  | var i => intro fuel _ _; cases fuel <;> rfl
  | sort l => intro fuel _ _; cases fuel <;> rfl
  | const n ls => intro fuel _ _; cases fuel <;> rfl
  | locl n tmp => intro fuel _ _; cases fuel <;> rfl
  | meta n =>
      intro fuel _ _
      cases fuel with
      | zero => rfl
      | succ fuel => simp [toTacticProofFn, State.instUM, substOnce]
  | href i =>
      intro fuel hh _
      simp [Expr.hrefList] at hh
  | mref i =>
      intro fuel _ hm
      have hi := hm i (by simp [Expr.mrefList])
      cases fuel with
      | zero => rfl
      | succ fuel => simp [toTacticProofFn, State.instUM, substOnce, hi]
  | app f a ihf iha =>
      intro fuel hh hm
      cases fuel with
      | zero => rfl
      | succ fuel =>
          simp only [Expr.hrefList, List.append_eq_nil] at hh
          rw [toTacticProofFn,
            ihf fuel hh.1 (fun j h => hm j (by simp [Expr.mrefList, h])),
            iha fuel hh.2 (fun j h => hm j (by simp [Expr.mrefList, h]))]
  | lam n dd b ihd ihb =>
      intro fuel hh hm
      cases fuel with
      | zero => rfl
      | succ fuel =>
          simp only [Expr.hrefList, List.append_eq_nil] at hh
          rw [toTacticProofFn,
            ihd fuel hh.1 (fun j h => hm j (by simp [Expr.mrefList, h])),
            ihb fuel hh.2 (fun j h => hm j (by simp [Expr.mrefList, h]))]
  | pi n dd b ihd ihb =>
      intro fuel hh hm
      cases fuel with
      | zero => rfl
      | succ fuel =>
          simp only [Expr.hrefList, List.append_eq_nil] at hh
          rw [toTacticProofFn,
            ihd fuel hh.1 (fun j h => hm j (by simp [Expr.mrefList, h])),
            ihb fuel hh.2 (fun j h => hm j (by simp [Expr.mrefList, h]))]

/-- C5 counterexample: `mref 0` is declared but unassigned in `sC5`; the
externalized term is the mref itself, left in place unchanged — its head
is not an external metavariable, so the unassigned mref is not replaced
by a reconstituted external metavariable application. -/
theorem C5_unassigned_mref_cex :
    toTacticProofFn sC5 3 (.mref 0) = .mref 0
    ∧ isMeta (.mref 0) = false := by decide

/-- C5 (amended): in the externalized proof term an assigned mref is
replaced by its assignment, recursively instantiated to a fixed point
(here: an assignment that is already fully instantiated — its mrefs
unassigned, its urefs unassigned — and href-free is produced exactly);
an mref that is still unassigned is left in place unchanged, not
converted back into the original external metavariable application. -/
theorem C5_mref_externalization_amended (s : State) (i : Nat) (v : Expr)
    (fuel : Nat) (ha : s.getMrefAssignment i = some v)
    (hm : ∀ j ∈ v.mrefList, s.getMrefAssignment j = none)
    (hu : ∀ u ∈ v.urefList, s.getUrefAssignment u = none)
    (hh : v.hrefList = []) :
    toTacticProofFn s (fuel + 1) (.mref i) = v
    ∧ (∀ (s' : State) (j : Nat), s'.getMrefAssignment j = none →
        toTacticProofFn s' (fuel + 1) (.mref j) = .mref j) := by
  have hne : v ≠ .mref i := by
    intro h
    subst h
    have h2 := hm i (by simp [Expr.mrefList])
    rw [ha] at h2
    simp at h2
  constructor
  · have hfix : substOnce s v = v := substOnce_id s v hm hu
    have h2 : s.instUM (fuel + 1) (.mref i) = v := by
      have hs : substOnce s (.mref i) = v := by simp [substOnce, ha]
      rw [State.instUM, hs, if_neg hne]
      exact instUM_eq_of_fixed s v hfix fuel
    rw [toTacticProofFn, h2, if_neg hne]
    exact toTacticProofFn_id s v fuel hh hm
  · intro s' j hj
    simp [toTacticProofFn, State.instUM, substOnce, hj]

theorem C5_mref_externalization_amended_witness :
    sC5w.getMrefAssignment 0 = some (.locl "h" false)
    ∧ toTacticProofFn sC5w 4 (.mref 0) = .locl "h" false
    ∧ toTacticProofFn initState 4 (.mref 5) = .mref 5 :=
  ⟨by decide,
   (C5_mref_externalization_amended sC5w 0 (.locl "h" false) 3 (by decide)
     (by decide) (by decide) (by decide)).1,
   (C5_mref_externalization_amended sC5w 0 (.locl "h" false) 3 (by decide)
     (by decide) (by decide) (by decide)).2 initState 5 (by decide)⟩

/-- C6: in the externalized proof term an href whose hypothesis records
the external local constant (retained at `mk_hypothesis` time) is
replaced by that local constant; and the inlining of hypothesis values is
recursive — an href whose value is itself an href is externalized through
the second hypothesis's recorded value. -/
theorem C6_href_externalization (s : State) (fuel : Nat) :
    (∀ (i : Nat) (nm : Name) (ty : Expr) (n : Name) (b : Bool),
        s.getHypothesisDecl i = some ⟨nm, ty, some (.locl n b)⟩ →
        toTacticProofFn s (fuel + 1) (.href i) = .locl n b)
    ∧ (∀ (i j : Nat) (nm : Name) (ty : Expr) (nm' : Name) (ty' v : Expr),
        s.getHypothesisDecl i = some ⟨nm, ty, some (.href j)⟩ →
        s.getHypothesisDecl j = some ⟨nm', ty', some v⟩ →
        v.hrefList = [] →
        (∀ k ∈ v.mrefList, s.getMrefAssignment k = none) →
        toTacticProofFn s (fuel + 2) (.href i) = v) := by
  constructor
  · intro i nm ty n b h
    have e1 : toTacticProofFn s (fuel + 1) (.href i)
        = toTacticProofFn s fuel (.locl n b) := by
      simp [toTacticProofFn, h]
    rw [e1]
    cases fuel <;> rfl
  · intro i j nm ty nm' ty' v h1 h2 hh hm
    have e1 : toTacticProofFn s (fuel + 2) (.href i)
        = toTacticProofFn s (fuel + 1) (.href j) := by
      simp [toTacticProofFn, h1]
    have e2 : toTacticProofFn s (fuel + 1) (.href j)
        = toTacticProofFn s fuel v := by
      simp [toTacticProofFn, h2]
    rw [e1, e2]
    exact toTacticProofFn_id s v fuel hh hm

theorem C6_href_externalization_witness :
    sC6.getHypothesisDecl 0 = some ⟨"h", .const "P" [], some (.locl "h" false)⟩
    ∧ sC6.getHypothesisDecl 1 = some ⟨"g", .const "Q" [], some (.href 0)⟩
    ∧ toTacticProofFn sC6 4 (.href 0) = .locl "h" false
    ∧ toTacticProofFn sC6 5 (.href 1) = .locl "h" false :=
  ⟨by decide, by decide,
   (C6_href_externalization sC6 3).1 0 "h" (.const "P" []) "h" false (by decide),
   (C6_href_externalization sC6 3).2 1 0 "g" (.const "Q" []) "h" (.const "P" [])
     (.locl "h" false) (by decide) (by decide) (by decide) (by decide)⟩

theorem C8_snapshot_rollback_witness :
    (⟨initState, []⟩ : Tctx).currState.getMrefAssignment 0 = none
    ∧ ((((⟨initState, []⟩ : Tctx).push).assignAll
          [(0, Expr.locl "a" false)]).pop).currState.getMrefAssignment 0
        = none :=
  ⟨by decide,
   C8_snapshot_rollback.2.1 ⟨initState, []⟩ [(0, Expr.locl "a" false)] 0
     (by decide)⟩
